import Mathlib

/-!
Shallow embedding of `gradebook.py` (GradeBook Analyzer).

Scores are modelled as rationals (`ℚ`): the program treats scores as finite
real numbers and every comparison it performs (`>=`, `<=`, `<`, `==`) is
exact order comparison, which ℚ models faithfully for the decimal literals
appearing in the program and its data.

A Record Set (the `OrderedDict {name: score}` the input layer builds) is an
insertion-ordered association list; `odInsert` is Python's `d[name] = score`
on an insertion-ordered dict: an existing key keeps its position and gets the
new value, a new key is appended at the end.
-/

namespace Gradebook

abbrev Score := ℚ
abbrev Name := String
abbrev RecordSet := List (Name × Score)

/-- Python `d[name] = score` on a `dict` / `OrderedDict`: if the key is
present, its value is updated in place and its position is unchanged;
otherwise the pair is appended at the end. -/
def odInsert : RecordSet → Name → Score → RecordSet
  | [], n, s => [(n, s)]
  | p :: d, n, s => if p.1 = n then (n, s) :: d else p :: odInsert d n s

/-- The Record Set obtained by performing the `data[name] = score` writes of
a sequence of accepted entries in order (shared by `load_from_csv` and
`manual_entry`, which differ only in where the entries come from). -/
def buildRecords (entries : List (Name × Score)) : RecordSet :=
  entries.foldl (fun d p => odInsert d p.1 p.2) []

/-- Dictionary lookup `d[n]` as an option (first matching key). -/
def getScore : RecordSet → Name → Option Score
  | [], _ => none
  | p :: d, n => if p.1 = n then some p.2 else getScore d n

/-- `calculate_average`: `None` on empty input, else `sum(values)/len`. -/
def calculate_average (marks : RecordSet) : Option Score :=
  if marks.isEmpty then none
  else some ((marks.map Prod.snd).sum / (marks.length : Score))

/-- `calculate_median`: `None` on empty input, else `statistics.median` of the
values: sort ascending; odd count takes the middle element, even count the
average of the two middle elements.  (`sorted` is modelled by
`List.insertionSort`, any stable comparison sort of the value list.) -/
def calculate_median (marks : RecordSet) : Option Score :=
  if marks.isEmpty then none
  else
    let sorted := List.insertionSort (· ≤ ·) (marks.map Prod.snd)
    let n := sorted.length
    if n % 2 = 1 then some (sorted.getD (n / 2) 0)
    else some ((sorted.getD (n / 2 - 1) 0 + sorted.getD (n / 2) 0) / 2)

/-- Python `max(iterable)` on a nonempty list (left fold of binary max);
the `[]` case is a dummy value, `find_max_score` guards emptiness first. -/
def listMax : List Score → Score
  | [] => 0
  | x :: xs => xs.foldl max x

/-- Python `min(iterable)` on a nonempty list, as for `listMax`. -/
def listMin : List Score → Score
  | [] => 0
  | x :: xs => xs.foldl min x

/-- `find_max_score`: `(None, [])` on empty input, else the maximum of the
values together with the names of all students whose score equals it, in
Record Set iteration order. -/
def find_max_score (marks : RecordSet) : Option Score × List Name :=
  if marks.isEmpty then (none, [])
  else
    let m := listMax (marks.map Prod.snd)
    (some m, (marks.filter (fun p => decide (p.2 = m))).map Prod.fst)

/-- `find_min_score`, symmetric to `find_max_score`. -/
def find_min_score (marks : RecordSet) : Option Score × List Name :=
  if marks.isEmpty then (none, [])
  else
    let m := listMin (marks.map Prod.snd)
    (some m, (marks.filter (fun p => decide (p.2 = m))).map Prod.fst)

/-- The grade branch of `assign_grades`, exactly as written in the source:
`score >= 90` gives A, `80 <= score <= 89.9999` gives B,
`70 <= score <= 79.9999` gives C, `60 <= score <= 69.9999` gives D,
everything else falls through to F. -/
def gradeOf (score : Score) : Char :=
  if score ≥ 90 then 'A'
  else if 80 ≤ score ∧ score ≤ 899999 / 10000 then 'B'
  else if 70 ≤ score ∧ score ≤ 799999 / 10000 then 'C'
  else if 60 ≤ score ∧ score ≤ 699999 / 10000 then 'D'
  else 'F'

/-- `assign_grades`: builds `{name: grade}` over the Record Set in iteration
order.  Record Set names are unique, so the dict build is a per-entry map. -/
def assign_grades (marks : RecordSet) : List (Name × Char) :=
  marks.map (fun p => (p.1, gradeOf p.2))

/-- The spec's grading table, written from its words: half-open intervals
with inclusive lower bounds `[90, ∞) ↦ A`, `[80, 90) ↦ B`, `[70, 80) ↦ C`,
`[60, 70) ↦ D`, `(-∞, 60) ↦ F`; used only to compare against `gradeOf`. -/
def gradeSpec (score : Score) : Char :=
  if score ≥ 90 then 'A'
  else if 80 ≤ score then 'B'
  else if 70 ≤ score then 'C'
  else if 60 ≤ score then 'D'
  else 'F'

/-- Distinct elements of a list in order of first occurrence (the key order
of a Python dict or `collections.Counter` built from that list). -/
def firstOccs {α : Type} [DecidableEq α] (l : List α) : List α :=
  l.foldl (fun ks v => if v ∈ ks then ks else ks ++ [v]) []

/-- Key order of a `collections.Counter` built from a list of values:
distinct values in order of first occurrence. -/
def counterKeys (vals : List Char) : List Char :=
  firstOccs vals

/-- `grade_distribution`: `Counter(grades_dict.values())`, modelled as the
Counter's key list (distinct grades by first occurrence; zero-count grades
are NOT keys) together with its count function (which, like Counter lookup,
returns 0 for an absent key). -/
def grade_distribution (grades : List (Name × Char)) : List Char × (Char → Nat) :=
  ((counterKeys (grades.map Prod.snd)), fun g => (grades.map Prod.snd).count g)

/-- `get_pass_fail`: two list comprehensions over the Record Set in order,
names with `score >= threshold` and names with `score < threshold`. -/
def get_pass_fail (marks : RecordSet) (threshold : Score) : List Name × List Name :=
  ((marks.filter (fun p => decide (threshold ≤ p.2))).map Prod.fst,
   (marks.filter (fun p => decide (p.2 < threshold))).map Prod.fst)

/-! ### CSV layer

A CSV file is modelled at the structural row level (lists of field strings):
`csv.writer`/`csv.reader` quote and unquote fields so that every field string
round-trips verbatim, which is exactly what this representation captures.
Numeric rendering (`str(marks)`) and numeric parsing (`float(...)`) of score
fields are parameters of the model, since Python float formatting is outside
the rational score model. -/

abbrev CsvRows := List (List String)

/-- Python `str.strip()`: drop leading and trailing whitespace. -/
def stripStr (s : String) : String :=
  String.mk (((s.data.dropWhile Char.isWhitespace).reverse.dropWhile Char.isWhitespace).reverse)

/-- Header detection of `load_from_csv`: try `float(rows[0][1])`; on any
failure (missing column or unparsable cell) start reading from row 1,
otherwise from row 0. -/
def detectStart (parseFloat : String → Option Score) (r0 : List String) : Nat :=
  match r0.get? 1 with
  | some cell => match parseFloat cell with
    | some _ => 0
    | none => 1
  | none => 1

/-- The row loop of `load_from_csv`: skip rows with fewer than two columns,
rows whose stripped name is empty, and rows whose stripped marks cell does
not parse; accepted rows perform `data[name] = score`. -/
def loadRows (parseFloat : String → Option Score) (rows : CsvRows) : RecordSet :=
  rows.foldl
    (fun data r =>
      if r.length < 2 then data
      else
        let name := stripStr (r.getD 0 "")
        if name = "" then data
        else
          match parseFloat (stripStr (r.getD 1 "")) with
          | none => data
          | some score => odInsert data name score)
    []

/-- `load_from_csv` on the parsed row list of a readable file: empty file
gives an empty Record Set; otherwise header detection picks the start row
and the row loop builds the Record Set. -/
def load_from_csv (parseFloat : String → Option Score) (rows : CsvRows) : RecordSet :=
  match rows with
  | [] => []
  | r0 :: _ => loadRows parseFloat (rows.drop (detectStart parseFloat r0))

/-- `grades_dict.get(name, "")`: the grade cell written next to a student. -/
def getGrade : List (Name × Char) → Name → Option Char
  | [], _ => none
  | p :: d, n => if p.1 = n then some p.2 else getGrade d n

/-- `export_to_csv` at the structural row level: the header row
`Name,Marks,Grade`, then one row per student in Record Set order with the
name verbatim, the score rendered by `render` (Python `str(marks)`), and
`grades_dict.get(name, "")` as the grade cell. -/
def export_to_csv (render : Score → String) (marks : RecordSet)
    (grades : List (Name × Char)) : CsvRows :=
  ["Name", "Marks", "Grade"] ::
    marks.map (fun p =>
      [p.1, render p.2, ((getGrade grades p.1).map (fun c => String.mk [c])).getD ""])

/-! ### A concrete renderer/parser pair for nonnegative integer scores,
used to instantiate the CSV parameters on concrete inputs. -/

/-- Value of a digit string, most significant digit first. -/
def digitsToNat (cs : List Char) : Nat :=
  cs.foldl (fun n c => 10 * n + (c.toNat - 48)) 0

/-- Parse a nonempty all-digit string as a (nonnegative integer) score. -/
def parseFloatNat (s : String) : Option Score :=
  if s.data ≠ [] ∧ s.data.all Char.isDigit then some ((digitsToNat s.data : ℕ) : ℚ)
  else none

/-- Decimal digits of `n`, given enough fuel (first argument). -/
def natToDigits : Nat → Nat → List Char
  | 0, _ => []
  | fuel + 1, n =>
    if n < 10 then [Char.ofNat (48 + n)]
    else natToDigits fuel (n / 10) ++ [Char.ofNat (48 + n % 10)]

/-- Render a nonnegative integer score as its decimal digit string. -/
def renderNat (q : Score) : String := String.mk (natToDigits q.num.toNat q.num.toNat)

/-! ## Helper lemmas -/

theorem foldl_max_init_le (xs : List Score) : ∀ x : Score, x ≤ xs.foldl max x := by
  induction xs with
  | nil => intro x; exact le_refl x
  | cons y ys ih =>
    intro x
    exact le_trans (le_max_left x y) (ih (max x y))

theorem foldl_max_le (xs : List Score) : ∀ (x : Score) (a : Score), a ∈ xs → a ≤ xs.foldl max x := by
  induction xs with
  | nil => intro x a ha; cases ha
  | cons y ys ih =>
    intro x a ha
    rcases List.mem_cons.mp ha with rfl | ha
    · exact le_trans (le_max_right x a) (foldl_max_init_le ys (max x a))
    · exact ih (max x y) a ha

theorem foldl_max_mem (xs : List Score) : ∀ x : Score, xs.foldl max x = x ∨ xs.foldl max x ∈ xs := by
  induction xs with
  | nil => intro x; exact Or.inl rfl
  | cons y ys ih =>
    intro x
    rcases ih (max x y) with h | h
    · rcases max_choice x y with hm | hm
      · exact Or.inl (by rw [List.foldl_cons, h, hm])
      · exact Or.inr (by rw [List.foldl_cons, h, hm]; exact List.mem_cons_self y ys)
    · exact Or.inr (List.mem_cons_of_mem y h)

theorem listMax_mem (l : List Score) (h : l ≠ []) : listMax l ∈ l := by
  match l with
  | x :: xs =>
    rcases foldl_max_mem xs x with h1 | h1
    · rw [listMax, h1]; exact List.mem_cons_self x xs
    · rw [listMax]; exact List.mem_cons_of_mem x h1

theorem le_listMax (l : List Score) (a : Score) (ha : a ∈ l) : a ≤ listMax l := by
  match l with
  | x :: xs =>
    rcases List.mem_cons.mp ha with rfl | ha
    · exact foldl_max_init_le xs a
    · exact foldl_max_le xs x a ha

theorem foldl_min_init_le (xs : List Score) : ∀ x : Score, xs.foldl min x ≤ x := by
  induction xs with
  | nil => intro x; exact le_refl x
  | cons y ys ih =>
    intro x
    exact le_trans (ih (min x y)) (min_le_left x y)

theorem foldl_min_le (xs : List Score) : ∀ (x : Score) (a : Score), a ∈ xs → xs.foldl min x ≤ a := by
  induction xs with
  | nil => intro x a ha; cases ha
  | cons y ys ih =>
    intro x a ha
    rcases List.mem_cons.mp ha with rfl | ha
    · exact le_trans (foldl_min_init_le ys (min x a)) (min_le_right x a)
    · exact ih (min x y) a ha

theorem foldl_min_mem (xs : List Score) : ∀ x : Score, xs.foldl min x = x ∨ xs.foldl min x ∈ xs := by
  induction xs with
  | nil => intro x; exact Or.inl rfl
  | cons y ys ih =>
    intro x
    rcases ih (min x y) with h | h
    · rcases min_choice x y with hm | hm
      · exact Or.inl (by rw [List.foldl_cons, h, hm])
      · exact Or.inr (by rw [List.foldl_cons, h, hm]; exact List.mem_cons_self y ys)
    · exact Or.inr (List.mem_cons_of_mem y h)

theorem listMin_mem (l : List Score) (h : l ≠ []) : listMin l ∈ l := by
  match l with
  | x :: xs =>
    rcases foldl_min_mem xs x with h1 | h1
    · rw [listMin, h1]; exact List.mem_cons_self x xs
    · rw [listMin]; exact List.mem_cons_of_mem x h1

theorem listMin_le (l : List Score) (a : Score) (ha : a ∈ l) : listMin l ≤ a := by
  match l with
  | x :: xs =>
    rcases List.mem_cons.mp ha with rfl | ha
    · exact foldl_min_init_le xs a
    · exact foldl_min_le xs x a ha

theorem odInsert_map_fst (d : RecordSet) (n : Name) (s : Score) :
    (odInsert d n s).map Prod.fst =
      if n ∈ d.map Prod.fst then d.map Prod.fst else d.map Prod.fst ++ [n] := by
  induction d with
  | nil => simp [odInsert]
  | cons p t ih =>
    by_cases h : p.1 = n
    · subst h
      simp [odInsert]
    · simp only [odInsert, if_neg h, List.map_cons, ih]
      have hne : ¬ n = p.1 := fun hc => h hc.symm
      by_cases hm : n ∈ t.map Prod.fst
      · simp [hm, hne]
      · simp [hm, hne]

theorem odInsert_getScore (d : RecordSet) (n m : Name) (s : Score) :
    getScore (odInsert d n s) m = if m = n then some s else getScore d m := by
  induction d with
  | nil => simp [odInsert, getScore, eq_comm]
  | cons p t ih =>
    by_cases h1 : p.1 = n
    · subst h1
      by_cases h2 : m = p.1 <;> simp [odInsert, getScore, h2, eq_comm]
    · by_cases h2 : p.1 = m
      · subst h2
        simp [odInsert, getScore, h1]
      · simp [odInsert, getScore, h1, h2, ih]

theorem odInsert_not_mem (d : RecordSet) (n : Name) (s : Score)
    (h : n ∉ d.map Prod.fst) : odInsert d n s = d ++ [(n, s)] := by
  induction d with
  | nil => simp [odInsert]
  | cons p t ih =>
    simp only [List.map_cons, List.mem_cons] at h
    push_neg at h
    have hne : ¬ p.1 = n := fun hc => h.1 hc.symm
    simp [odInsert, hne, ih h.2]

theorem getScore_append (d₁ d₂ : RecordSet) (n : Name) :
    getScore (d₁ ++ d₂) n = (getScore d₁ n).or (getScore d₂ n) := by
  induction d₁ with
  | nil => simp [getScore]
  | cons p t ih =>
    by_cases h : p.1 = n <;> simp [getScore, h, ih]

theorem foldl_od_getScore (es : List (Name × Score)) :
    ∀ (acc : RecordSet) (n : Name),
      getScore (es.foldl (fun d p => odInsert d p.1 p.2) acc) n =
        (getScore es.reverse n).or (getScore acc n) := by
  induction es with
  | nil => intro acc n; simp [getScore]
  | cons e t ih =>
    intro acc n
    rw [List.foldl_cons, ih, List.reverse_cons, getScore_append, Option.or_assoc]
    congr 1
    rw [odInsert_getScore]
    by_cases h : e.1 = n
    · simp [getScore, h, eq_comm]
    · have : ¬ n = e.1 := fun hc => h hc.symm
      simp [getScore, h, this]

theorem foldl_od_map_fst (es : List (Name × Score)) :
    ∀ acc : RecordSet,
      ((es.foldl (fun d p => odInsert d p.1 p.2) acc).map Prod.fst) =
        (es.map Prod.fst).foldl (fun ks v => if v ∈ ks then ks else ks ++ [v])
          (acc.map Prod.fst) := by
  induction es with
  | nil => intro acc; rfl
  | cons e t ih =>
    intro acc
    rw [List.foldl_cons, ih, List.map_cons, List.foldl_cons, odInsert_map_fst]

theorem foldl_firstOccs_mem {α : Type} [DecidableEq α] (l : List α) :
    ∀ (ks : List α) (x : α),
      (x ∈ l.foldl (fun ks v => if v ∈ ks then ks else ks ++ [v]) ks) ↔ x ∈ ks ∨ x ∈ l := by
  induction l with
  | nil => intro ks x; simp
  | cons v t ih =>
    intro ks x
    rw [List.foldl_cons, ih]
    by_cases h : v ∈ ks
    · simp only [if_pos h, List.mem_cons]
      constructor
      · rintro (hx | hx)
        · exact Or.inl hx
        · exact Or.inr (Or.inr hx)
      · rintro (hx | rfl | hx)
        · exact Or.inl hx
        · exact Or.inl h
        · exact Or.inr hx
    · simp only [if_neg h, List.mem_append, List.mem_singleton, List.mem_cons]
      tauto

theorem foldl_firstOccs_nodup {α : Type} [DecidableEq α] (l : List α) :
    ∀ ks : List α, ks.Nodup →
      (l.foldl (fun ks v => if v ∈ ks then ks else ks ++ [v]) ks).Nodup := by
  induction l with
  | nil => intro ks h; exact h
  | cons v t ih =>
    intro ks h
    rw [List.foldl_cons]
    by_cases hv : v ∈ ks
    · rw [if_pos hv]; exact ih ks h
    · rw [if_neg hv]
      refine ih (ks ++ [v]) ?_
      simp [List.nodup_append, h, hv]

theorem firstOccs_mem {α : Type} [DecidableEq α] (l : List α) (x : α) :
    x ∈ firstOccs l ↔ x ∈ l := by
  rw [firstOccs, foldl_firstOccs_mem]
  simp

theorem firstOccs_nodup {α : Type} [DecidableEq α] (l : List α) : (firstOccs l).Nodup :=
  foldl_firstOccs_nodup l [] List.nodup_nil

theorem buildRecords_map_fst (es : List (Name × Score)) :
    (buildRecords es).map Prod.fst = firstOccs (es.map Prod.fst) := by
  rw [buildRecords, foldl_od_map_fst, firstOccs]
  rfl

theorem buildRecords_getScore (es : List (Name × Score)) (n : Name) :
    getScore (buildRecords es) n = getScore es.reverse n := by
  rw [buildRecords, foldl_od_getScore]
  simp [getScore]

theorem foldl_od_self (marks : RecordSet) :
    ∀ acc : RecordSet, (∀ p ∈ marks, p.1 ∉ acc.map Prod.fst) → (marks.map Prod.fst).Nodup →
      marks.foldl (fun d p => odInsert d p.1 p.2) acc = acc ++ marks := by
  induction marks with
  | nil => intro acc _ _; simp
  | cons e t ih =>
    intro acc hnotin hnd
    rw [List.foldl_cons]
    have he : e.1 ∉ acc.map Prod.fst := hnotin e (List.mem_cons_self e t)
    have step : odInsert acc e.1 e.2 = acc ++ [e] := by
      rw [odInsert_not_mem acc e.1 e.2 he]
    rw [step, ih (acc ++ [e]) ?_ ?_]
    · rw [List.append_assoc, List.singleton_append]
    · intro p hp
      simp only [List.map_append, List.mem_append, List.map_cons, List.map_nil,
        List.mem_singleton]
      push_neg
      refine ⟨hnotin p (List.mem_cons_of_mem e hp), ?_⟩
      intro hc
      have : e.1 ∈ t.map Prod.fst := by
        rw [← hc]; exact List.mem_map_of_mem Prod.fst hp
      exact (List.nodup_cons.mp (by simpa using hnd)).1 this
    · exact (List.nodup_cons.mp (by simpa using hnd)).2

theorem tie_names_mem (marks : RecordSet) (v : Score) (n : Name) :
    n ∈ (marks.filter (fun p => decide (p.2 = v))).map Prod.fst ↔ (n, v) ∈ marks := by
  simp only [List.mem_map, List.mem_filter, decide_eq_true_eq]
  constructor
  · rintro ⟨⟨a, b⟩, ⟨hm, rfl⟩, rfl⟩
    exact hm
  · intro hm
    exact ⟨(n, v), ⟨hm, rfl⟩, rfl⟩

theorem eq_of_mem_nodup_keys (marks : RecordSet) (hnd : (marks.map Prod.fst).Nodup)
    {p q : Name × Score} (hp : p ∈ marks) (hq : q ∈ marks) (hfst : p.1 = q.1) : p = q := by
  induction marks with
  | nil => cases hp
  | cons r t ih =>
    rw [List.map_cons, List.nodup_cons] at hnd
    rcases List.mem_cons.mp hp with rfl | hp2
    · rcases List.mem_cons.mp hq with rfl | hq2
      · rfl
      · exfalso; apply hnd.1; rw [hfst]; exact List.mem_map_of_mem Prod.fst hq2
    · rcases List.mem_cons.mp hq with rfl | hq2
      · exfalso; apply hnd.1; rw [← hfst]; exact List.mem_map_of_mem Prod.fst hp2
      · exact ih hnd.2 hp2 hq2

theorem filter_ge_lt_length (marks : RecordSet) (t : Score) :
    (marks.filter (fun p => decide (t ≤ p.2))).length +
      (marks.filter (fun p => decide (p.2 < t))).length = marks.length := by
  induction marks with
  | nil => rfl
  | cons r tl ih =>
    by_cases hr : t ≤ r.2
    · have hr2 : ¬ r.2 < t := not_lt.mpr hr
      simp only [List.filter_cons, decide_eq_true_eq, hr, if_pos, hr2, if_neg,
        decide_eq_false_iff_not, List.length_cons]
      simp [hr, hr2]
      omega
    · have hr2 : r.2 < t := not_le.mp hr
      simp [List.filter_cons, hr, hr2]
      omega

theorem gradeOf_mem_labels (s : Score) : gradeOf s ∈ ['A', 'B', 'C', 'D', 'F'] := by
  unfold gradeOf
  repeat' split
  all_goals simp

theorem count_eq_filter_length (l : List (Name × Char)) (g : Char) :
    (l.map Prod.snd).count g = (l.filter (fun p => decide (p.2 = g))).length := by
  induction l with
  | nil => rfl
  | cons p t ih =>
    by_cases h : p.2 = g
    · simp [List.count_cons, List.filter_cons, h, ih]
    · simp [List.count_cons, List.filter_cons, h, ih]

theorem sum_map_add_nat {α : Type} (l : List α) (f g : α → Nat) :
    (l.map (fun x => f x + g x)).sum = (l.map f).sum + (l.map g).sum := by
  induction l with
  | nil => rfl
  | cons a t ih => simp [ih]; omega

theorem sum_indicator_one {α : Type} [DecidableEq α] (labels : List α) (c : α)
    (hnd : labels.Nodup) (hc : c ∈ labels) :
    (labels.map (fun g => if c = g then (1 : Nat) else 0)).sum = 1 := by
  induction labels with
  | nil => cases hc
  | cons a t ih =>
    rw [List.nodup_cons] at hnd
    rcases List.mem_cons.mp hc with rfl | hct
    · simp only [List.map_cons, List.sum_cons, if_pos rfl]
      have hz : (t.map (fun g => if c = g then (1 : Nat) else 0)).sum = 0 := by
        apply List.sum_eq_zero
        intro x hx
        obtain ⟨g, hg, hgx⟩ := List.mem_map.mp hx
        have hne : ¬ c = g := fun hcg => hnd.1 (hcg ▸ hg)
        rw [← hgx, if_neg hne]
      rw [hz]
      simp
    · have hca : ¬ c = a := fun hca => hnd.1 (hca ▸ hct)
      simp only [List.map_cons, List.sum_cons, if_neg hca]
      rw [ih hnd.2 hct]

theorem sum_label_counts {α : Type} [DecidableEq α] (l labels : List α)
    (hnd : labels.Nodup) (hmem : ∀ c ∈ l, c ∈ labels) :
    (labels.map (fun g => l.count g)).sum = l.length := by
  induction l with
  | nil => simp
  | cons c t ih =>
    have hc := hmem c (List.mem_cons_self c t)
    have ht : ∀ x ∈ t, x ∈ labels := fun x hx => hmem x (List.mem_cons_of_mem c hx)
    have hsplit : ∀ g, (c :: t).count g = t.count g + (if c = g then 1 else 0) := by
      intro g
      by_cases h : c = g
      · subst h; simp [List.count_cons]
      · simp [List.count_cons, h, Ne.symm h]
    calc (labels.map (fun g => (c :: t).count g)).sum
        = (labels.map (fun g => t.count g + (if c = g then 1 else 0))).sum := by
          exact congrArg List.sum (List.map_congr_left (fun g _ => hsplit g))
      _ = (labels.map (fun g => t.count g)).sum +
            (labels.map (fun g => if c = g then 1 else 0)).sum :=
          sum_map_add_nat labels _ _
      _ = t.length + 1 := by rw [ih ht, sum_indicator_one labels c hnd hc]
      _ = (c :: t).length := by simp

/-! ## Claim theorems -/

/-- C10: on the empty Record Set every statistics operation reports an
absent result rather than an error: `calculate_average` and
`calculate_median` return `None`, and `find_max_score` / `find_min_score`
return `(None, [])`. -/
theorem empty_record_set_stats_absent :
    calculate_average [] = none ∧ calculate_median [] = none ∧
    find_max_score [] = (none, []) ∧ find_min_score [] = (none, []) :=
  ⟨rfl, rfl, rfl, rfl⟩

/-- C8: for every non-empty Record Set, `calculate_average` returns exactly
the sum of all scores divided by the number of students, with no rounding. -/
theorem mean_eq_sum_div_count (marks : RecordSet) (h : marks ≠ []) :
    calculate_average marks = some ((marks.map Prod.snd).sum / (marks.length : Score)) := by
  simp [calculate_average, h]

/-- Witness for C8: the mean of scores 1 and 2 is 3/2. -/
theorem mean_eq_sum_div_count_witness :
    calculate_average [("a", 1), ("b", 2)] = some (3 / 2) := by
  rw [mean_eq_sum_div_count [("a", 1), ("b", 2)] (by decide)]
  norm_num

/-- C1 (code bug): the claim says grades follow half-open tiers (B iff
80 ≤ s < 90, and so on), but at score 89.99995 — inside the claimed B tier —
the code's `score <= 89.9999` bound misses and the score falls through
to F; the spec's half-open table (`gradeSpec`) gives B there. -/
theorem grade_gap_misclassification :
    gradeOf (8999995 / 100000) = 'F' ∧ gradeSpec (8999995 / 100000) = 'B' ∧
    80 ≤ (8999995 / 100000 : Score) ∧ (8999995 / 100000 : Score) < 90 := by
  refine ⟨?_, ?_, by norm_num, by norm_num⟩
  · norm_num [gradeOf]
  · norm_num [gradeSpec]

/-- C2: grade assignment keeps exactly the Record Set's names in order,
every score gets exactly one of the five letters, and every score strictly
inside one of the four inter-tier gaps (89.9999, 90), (79.9999, 80),
(69.9999, 70), (59.9999, 60) falls through the chain to F. -/
theorem grading_total_and_gap_fallthrough :
    (∀ marks : RecordSet, (assign_grades marks).map Prod.fst = marks.map Prod.fst) ∧
    (∀ s : Score,
      gradeOf s = 'A' ∨ gradeOf s = 'B' ∨ gradeOf s = 'C' ∨ gradeOf s = 'D' ∨
        gradeOf s = 'F') ∧
    (∀ s : Score,
      (899999 / 10000 < s ∧ s < 90) ∨ (799999 / 10000 < s ∧ s < 80) ∨
        (699999 / 10000 < s ∧ s < 70) ∨ (599999 / 10000 < s ∧ s < 60) →
      gradeOf s = 'F') := by
  refine ⟨?_, ?_, ?_⟩
  · intro marks
    induction marks with
    | nil => rfl
    | cons p t ih => simp [assign_grades]
  · intro s
    unfold gradeOf
    repeat' split
    all_goals simp
  · intro s h
    rcases h with ⟨h1, h2⟩ | ⟨h1, h2⟩ | ⟨h1, h2⟩ | ⟨h1, h2⟩ <;>
    · unfold gradeOf
      rw [if_neg (by linarith), if_neg (by rintro ⟨ha, hb⟩; linarith),
        if_neg (by rintro ⟨ha, hb⟩; linarith), if_neg (by rintro ⟨ha, hb⟩; linarith)]

/-- C5: on every non-empty Record Set, `find_max_score` reports a score that
is an achieved upper bound of all scores, together with exactly the names of
the students achieving it, in Record Set order (a sublist of the name list);
`find_min_score` is symmetric for the minimum. -/
theorem max_min_report_extreme_and_ties (marks : RecordSet) (h : marks ≠ []) :
    (find_max_score marks).1.isSome ∧ (find_min_score marks).1.isSome ∧
    (∀ mx, (find_max_score marks).1 = some mx →
      mx ∈ marks.map Prod.snd ∧ (∀ p ∈ marks, p.2 ≤ mx) ∧
      (find_max_score marks).2 = (marks.filter (fun p => decide (p.2 = mx))).map Prod.fst ∧
      (∀ n, n ∈ (find_max_score marks).2 ↔ (n, mx) ∈ marks) ∧
      List.Sublist (find_max_score marks).2 (marks.map Prod.fst)) ∧
    (∀ mn, (find_min_score marks).1 = some mn →
      mn ∈ marks.map Prod.snd ∧ (∀ p ∈ marks, mn ≤ p.2) ∧
      (find_min_score marks).2 = (marks.filter (fun p => decide (p.2 = mn))).map Prod.fst ∧
      (∀ n, n ∈ (find_min_score marks).2 ↔ (n, mn) ∈ marks) ∧
      List.Sublist (find_min_score marks).2 (marks.map Prod.fst)) := by
  have hE : marks.isEmpty = false := by simp [h]
  have hvne : marks.map Prod.snd ≠ [] := by simpa using h
  have hfm : find_max_score marks =
      (some (listMax (marks.map Prod.snd)),
        (marks.filter (fun p => decide (p.2 = listMax (marks.map Prod.snd)))).map Prod.fst) := by
    simp [find_max_score, hE]
  have hfn : find_min_score marks =
      (some (listMin (marks.map Prod.snd)),
        (marks.filter (fun p => decide (p.2 = listMin (marks.map Prod.snd)))).map Prod.fst) := by
    simp [find_min_score, hE]
  refine ⟨by rw [hfm]; rfl, by rw [hfn]; rfl, ?_, ?_⟩
  · intro mx hmx
    rw [hfm] at hmx
    have hmx2 : mx = listMax (marks.map Prod.snd) := (Option.some.inj hmx).symm
    subst hmx2
    refine ⟨listMax_mem _ hvne, ?_, by rw [hfm], ?_, ?_⟩
    · intro p hp
      exact le_listMax _ _ (List.mem_map_of_mem Prod.snd hp)
    · intro n
      rw [hfm]
      exact tie_names_mem marks _ n
    · rw [hfm]
      exact (List.filter_sublist marks).map Prod.fst
  · intro mn hmn
    rw [hfn] at hmn
    have hmn2 : mn = listMin (marks.map Prod.snd) := (Option.some.inj hmn).symm
    subst hmn2
    refine ⟨listMin_mem _ hvne, ?_, by rw [hfn], ?_, ?_⟩
    · intro p hp
      exact listMin_le _ _ (List.mem_map_of_mem Prod.snd hp)
    · intro n
      rw [hfn]
      exact tie_names_mem marks _ n
    · rw [hfn]
      exact (List.filter_sublist marks).map Prod.fst

/-- Witness for C5: on scores 3, 7, 7 the max is achieved by the two tied
students in order, the min by the single lowest student. -/
theorem max_min_report_extreme_and_ties_witness :
    (find_max_score [("a", 3), ("b", 7), ("c", 7)]).2 = ["b", "c"] ∧
    (find_min_score [("a", 3), ("b", 7), ("c", 7)]).2 = ["a"] := by
  have h := max_min_report_extreme_and_ties [("a", 3), ("b", 7), ("c", 7)] (by decide)
  constructor
  · rw [(h.2.2.1 7 (by decide)).2.2.1]
    decide
  · rw [(h.2.2.2 3 (by decide)).2.2.1]
    decide

/-- C6: on every non-empty Record Set, `calculate_median` returns, for the
ascending sort of the score values, the middle value (odd count) or the
average of the two middle values (even count); the sort compares values
only, never names. -/
theorem median_of_sorted_values (marks : RecordSet) (l : List Score) (h : marks ≠ [])
    (hs : l.Sorted (· ≤ ·)) (hp : l.Perm (marks.map Prod.snd)) :
    calculate_median marks =
      some (if marks.length % 2 = 1 then l.getD (marks.length / 2) 0
        else (l.getD (marks.length / 2 - 1) 0 + l.getD (marks.length / 2) 0) / 2) := by
  have hE : marks.isEmpty = false := by simp [h]
  have hl : l = List.insertionSort (· ≤ ·) (marks.map Prod.snd) :=
    List.eq_of_perm_of_sorted (hp.trans (List.perm_insertionSort _ _).symm) hs
      (List.sorted_insertionSort _ _)
  have hlen : (List.insertionSort (· ≤ ·) (marks.map Prod.snd)).length = marks.length := by
    rw [(List.perm_insertionSort _ _).length_eq, List.length_map]
  simp only [calculate_median, hE, Bool.false_eq_true, if_false, hlen, ← hl]
  have hleq : l.length = marks.length := by rw [hl, hlen]
  rw [hleq]
  by_cases hodd : marks.length % 2 = 1 <;> simp [hodd]

/-- Witness for C6: the median of the two scores 1 and 3 is their average 2. -/
theorem median_of_sorted_values_witness :
    calculate_median [("a", 1), ("b", 3)] = some 2 := by
  rw [median_of_sorted_values [("a", 1), ("b", 3)] [1, 3] (by decide) (by decide)
    (List.Perm.refl _)]
  norm_num

/-- C7: with the fixed threshold 40, `get_pass_fail` puts a name in the
passed list iff its score is at least 40 and in the failed list iff its
score is below 40; the two lists are disjoint, cover every name, have
lengths summing to the student count, and each preserves Record Set order. -/
theorem pass_fail_partition (marks : RecordSet) (hnd : (marks.map Prod.fst).Nodup) :
    (∀ p ∈ marks,
      (p.1 ∈ (get_pass_fail marks 40).1 ↔ 40 ≤ p.2) ∧
      (p.1 ∈ (get_pass_fail marks 40).2 ↔ p.2 < 40) ∧
      (p.1 ∈ (get_pass_fail marks 40).1 ∨ p.1 ∈ (get_pass_fail marks 40).2)) ∧
    (get_pass_fail marks 40).1.length + (get_pass_fail marks 40).2.length = marks.length ∧
    (∀ n, ¬(n ∈ (get_pass_fail marks 40).1 ∧ n ∈ (get_pass_fail marks 40).2)) ∧
    List.Sublist (get_pass_fail marks 40).1 (marks.map Prod.fst) ∧
    List.Sublist (get_pass_fail marks 40).2 (marks.map Prod.fst) := by
  have hpass : ∀ p ∈ marks, (p.1 ∈ (get_pass_fail marks 40).1 ↔ 40 ≤ p.2) := by
    intro p hp
    simp only [get_pass_fail, List.mem_map, List.mem_filter, decide_eq_true_eq]
    constructor
    · rintro ⟨q, ⟨hq, hq40⟩, hq1⟩
      rwa [← eq_of_mem_nodup_keys marks hnd hq hp hq1]
    · intro h40
      exact ⟨p, ⟨hp, h40⟩, rfl⟩
  have hfail : ∀ p ∈ marks, (p.1 ∈ (get_pass_fail marks 40).2 ↔ p.2 < 40) := by
    intro p hp
    simp only [get_pass_fail, List.mem_map, List.mem_filter, decide_eq_true_eq]
    constructor
    · rintro ⟨q, ⟨hq, hq40⟩, hq1⟩
      rwa [← eq_of_mem_nodup_keys marks hnd hq hp hq1]
    · intro h40
      exact ⟨p, ⟨hp, h40⟩, rfl⟩
  refine ⟨?_, ?_, ?_, ?_, ?_⟩
  · intro p hp
    refine ⟨hpass p hp, hfail p hp, ?_⟩
    rcases le_or_lt 40 p.2 with h40 | h40
    · exact Or.inl ((hpass p hp).mpr h40)
    · exact Or.inr ((hfail p hp).mpr h40)
  · simpa [get_pass_fail] using filter_ge_lt_length marks 40
  · rintro n ⟨h1, h2⟩
    simp only [get_pass_fail, List.mem_map, List.mem_filter, decide_eq_true_eq] at h1 h2
    obtain ⟨p, ⟨hp, hp40⟩, hp1⟩ := h1
    obtain ⟨q, ⟨hq, hq40⟩, hq1⟩ := h2
    have : p = q := eq_of_mem_nodup_keys marks hnd hp hq (hp1.trans hq1.symm)
    rw [this] at hp40
    linarith
  · exact (List.filter_sublist marks).map Prod.fst
  · exact (List.filter_sublist marks).map Prod.fst

/-- Witness for C7: a score of exactly 40 passes and a score of 39 fails. -/
theorem pass_fail_partition_witness :
    "P" ∈ (get_pass_fail [("P", 40), ("Q", 39)] 40).1 ∧
    "Q" ∈ (get_pass_fail [("P", 40), ("Q", 39)] 40).2 := by
  have h := pass_fail_partition [("P", 40), ("Q", 39)] (by decide)
  constructor
  · exact ((h.1 ("P", 40) (by decide)).1).mpr (by norm_num)
  · exact ((h.1 ("Q", 39) (by decide)).2.1).mpr (by norm_num)

/-- Counterexample for C3: entering a, b, a leaves a at its FIRST position
(Python dicts keep the original insertion position on overwrite), so the
claimed last-write iteration order b, a is wrong; the value is still the
last write's. -/
theorem duplicate_name_order_counterexample :
    buildRecords [("a", 1), ("b", 2), ("a", 3)] = [("a", 3), ("b", 2)] ∧
    (buildRecords [("a", 1), ("b", 2), ("a", 3)]).map Prod.fst ≠ ["b", "a"] := by
  decide

/-- C3 (amended): in a Record Set built from a sequence of entries, names
are unique, each name keeps the position of its FIRST write, each name's
score is the value of its LAST write, and all names are non-empty when the
entered names are. -/
theorem duplicate_name_last_value_first_position (es : List (Name × Score)) :
    (buildRecords es).map Prod.fst = firstOccs (es.map Prod.fst) ∧
    ((buildRecords es).map Prod.fst).Nodup ∧
    (∀ n, getScore (buildRecords es) n = getScore es.reverse n) ∧
    ((∀ p ∈ es, p.1 ≠ "") → ∀ q ∈ buildRecords es, q.1 ≠ "") := by
  refine ⟨buildRecords_map_fst es, ?_, fun n => buildRecords_getScore es n, ?_⟩
  · rw [buildRecords_map_fst es]
    exact firstOccs_nodup _
  · intro hne q hq
    have : q.1 ∈ (buildRecords es).map Prod.fst := List.mem_map_of_mem Prod.fst hq
    rw [buildRecords_map_fst es, firstOccs_mem] at this
    obtain ⟨p, hp, hp1⟩ := List.mem_map.mp this
    rw [← hp1]
    exact hne p hp

/-- Witness for C3: after entering a=1, b=2, a=3 the stored score of a is 3
(the last write) and every stored name is non-empty. -/
theorem duplicate_name_last_value_first_position_witness :
    getScore (buildRecords [("a", 1), ("b", 2), ("a", 3)]) "a" = some 3 ∧
    (∀ q ∈ buildRecords [("a", 1), ("b", 2), ("a", 3)], q.1 ≠ "") := by
  have h := duplicate_name_last_value_first_position [("a", 1), ("b", 2), ("a", 3)]
  constructor
  · rw [h.2.2.1 "a"]
    decide
  · exact h.2.2.2 (by decide)

/-- Counterexample for C4: with a single student graded A, the Counter
returned by `grade_distribution` has A as its only key; the zero-count
grade F is not present in the mapping, contrary to the claim that all five
labels are always present. -/
theorem distribution_missing_zero_count_label :
    (grade_distribution (assign_grades [("X", 95)])).1 = ['A'] ∧
    'F' ∉ (grade_distribution (assign_grades [("X", 95)])).1 ∧
    (grade_distribution (assign_grades [("X", 95)])).2 'F' = 0 := by
  decide

/-- C4 (amended): `grade_distribution` counts each grade correctly (lookup
of an absent key defaults to 0), its keys are exactly the grades with a
non-zero count — zero-count labels are absent — and the five counts over
A, B, C, D, F sum to the number of students. -/
theorem distribution_counts_sum_to_total (marks : RecordSet) :
    (∀ g, (grade_distribution (assign_grades marks)).2 g =
      ((assign_grades marks).filter (fun p => decide (p.2 = g))).length) ∧
    ((['A', 'B', 'C', 'D', 'F'].map (grade_distribution (assign_grades marks)).2).sum =
      marks.length) ∧
    (∀ g, g ∈ (grade_distribution (assign_grades marks)).1 ↔
      (grade_distribution (assign_grades marks)).2 g ≠ 0) := by
  refine ⟨fun g => count_eq_filter_length (assign_grades marks) g, ?_, ?_⟩
  · have hmem : ∀ c ∈ (assign_grades marks).map Prod.snd, c ∈ ['A', 'B', 'C', 'D', 'F'] := by
      intro c hcm
      obtain ⟨p, hp, hpc⟩ := List.mem_map.mp hcm
      obtain ⟨q, _, hqp⟩ := List.mem_map.mp hp
      rw [← hpc, ← hqp]
      exact gradeOf_mem_labels q.2
    have hsum := sum_label_counts ((assign_grades marks).map Prod.snd)
      ['A', 'B', 'C', 'D', 'F'] (by decide) hmem
    simpa [assign_grades, grade_distribution] using hsum
  · intro g
    simp only [grade_distribution, counterKeys]
    rw [firstOccs_mem]
    constructor
    · intro hg
      have := List.count_pos_iff.mpr hg
      omega
    · intro hg
      exact List.count_pos_iff.mp (Nat.pos_of_ne_zero hg)

/-- C9: exporting a Record Set with its grades to CSV rows (header
`Name,Marks,Grade`, one row per student in order) and re-loading those rows
with `load_from_csv` returns the original Record Set: the header is detected
and skipped (its Marks cell does not parse), and every data row is accepted
verbatim.  The score rendering/parsing pair is abstract; the hypotheses say
the names carry no surrounding whitespace and are non-empty and unique, and
that parsing inverts rendering on the scores present. -/
theorem export_then_load_round_trip (render : Score → String)
    (parseFloat : String → Option Score) (marks : RecordSet)
    (grades : List (Name × Char))
    (hname : ∀ p ∈ marks, stripStr p.1 = p.1 ∧ p.1 ≠ "")
    (hscore : ∀ p ∈ marks, parseFloat (stripStr (render p.2)) = some p.2)
    (hheader : parseFloat "Marks" = none)
    (hnd : (marks.map Prod.fst).Nodup) :
    load_from_csv parseFloat (export_to_csv render marks grades) = marks := by
  have hdet : detectStart parseFloat ["Name", "Marks", "Grade"] = 1 := by
    simp [detectStart, hheader]
  rw [export_to_csv]
  simp only [load_from_csv, hdet, List.drop_succ_cons, List.drop_zero]
  rw [loadRows, List.foldl_map]
  rw [List.foldl_ext _ (fun d (p : Name × Score) => odInsert d p.1 p.2) [] ?_]
  · rw [foldl_od_self marks [] (by simp) hnd]
    simp
  · intro d p hp
    obtain ⟨h1, h2⟩ := hname p hp
    simp only [List.length_cons, List.length_nil, List.getD_cons_zero, List.getD_cons_succ]
    rw [if_neg (by omega), h1]
    rw [if_neg h2, hscore p hp]

/-- Witness for C9: two students with integer scores 78 and 92, rendered and
re-parsed with the concrete decimal renderer/parser pair, survive the
export/load round trip unchanged. -/
theorem export_then_load_round_trip_witness :
    load_from_csv parseFloatNat
      (export_to_csv renderNat [("Alice", 78), ("Bob", 92)]
        (assign_grades [("Alice", 78), ("Bob", 92)])) = [("Alice", 78), ("Bob", 92)] :=
  export_then_load_round_trip renderNat parseFloatNat [("Alice", 78), ("Bob", 92)]
    (assign_grades [("Alice", 78), ("Bob", 92)])
    (by decide) (by decide) (by decide) (by decide)

/-- Witness for C2: score 89.99995 lies in the first gap and gets F, and on
a one-student Record Set the grade mapping has exactly that student's name. -/
theorem grading_total_and_gap_fallthrough_witness :
    gradeOf (8999995 / 100000) = 'F' ∧
    (assign_grades [("Ann", 95)]).map Prod.fst = ["Ann"] := by
  constructor
  · exact grading_total_and_gap_fallthrough.2.2 (8999995 / 100000)
      (Or.inl ⟨by norm_num, by norm_num⟩)
  · have := grading_total_and_gap_fallthrough.1 [("Ann", 95)]
    simp only [List.map_cons, List.map_nil] at this
    exact this

end Gradebook
